import Mathlib

/-!
Shallow embedding of the core of a small grep-like utility (src/main.rs):
the literal substring matcher `find_matches_in_line`, the highlighter
`colorize_hits`, the emit decision and output formatting of `search_file`,
and the per-file skip loop of `main`.

Lines, patterns and outputs are modelled as lists of byte values
(`List Nat`, each entry the value of one byte of the Rust `String`'s UTF-8
representation).  Match spans are `(start, end)` byte-offset pairs exactly
as in the Rust code.
-/

namespace Grep

/-- Bytes of an ASCII string literal (for ASCII text, UTF-8 bytes coincide
with codepoints).  Used only to state concrete examples readably. -/
def asciiBytes (s : String) : List Nat := s.data.map Char.toNat

/-- Decimal rendering of a line number, as `println!("{}", n)` produces
(the bytes of the usual base-10 representation). -/
def natBytes (n : Nat) : List Nat := (Nat.toDigits 10 n).map Char.toNat

/-- One byte of `u8::to_ascii_lowercase`: ASCII uppercase letters
(values 65–90, `A`–`Z`) are shifted to lowercase; every other byte is
unchanged.  `str::to_ascii_lowercase` maps this over the bytes. -/
def asciiLower (b : Nat) : Nat := if 65 ≤ b && b ≤ 90 then b + 32 else b

/-- Model of `String::to_ascii_lowercase` on the byte representation. -/
def to_ascii_lowercase (s : List Nat) : List Nat := s.map asciiLower

/-- The `while` loop of `find_matches_in_line` (src/main.rs:229-243).
`pos` is `current_position`; the loop runs while
`pos + pattern_length <= text_bytes.len()`, compares the window
`text_bytes[pos .. pos + pattern_length]` against the pattern, and on a
match records `(pos, pos + pattern_length)` and advances by the full
pattern length, otherwise advances by one.  `fuel` bounds the number of
iterations; since the caller guarantees a non-empty pattern, `pos` grows
by at least one per iteration, so any fuel ≥ `text.length + 1` is enough
to run the loop to its exit condition (`scanLoop_fuel_sufficient`). -/
def scanLoop (text pat : List Nat) : Nat → Nat → List (Nat × Nat)
  | 0, _ => []
  | fuel + 1, pos =>
    if pos + pat.length ≤ text.length then
      if (text.drop pos).take pat.length = pat then
        (pos, pos + pat.length) :: scanLoop text pat fuel (pos + pat.length)
      else
        scanLoop text pat fuel (pos + 1)
    else []

/-- The matcher `find_matches_in_line` (src/main.rs:204-246): returns the `(start, end)`
byte spans of all left-to-right non-overlapping occurrences of
`search_pattern` in `line_text`, after folding both to ASCII lowercase
when `ignore_case` is set. -/
def find_matches_in_line (line_text search_pattern : List Nat)
    (ignore_case : Bool) : List (Nat × Nat) :=
  if search_pattern = [] then []
  else
    let search_text :=
      if ignore_case then to_ascii_lowercase line_text else line_text
    let pattern_to_find :=
      if ignore_case then to_ascii_lowercase search_pattern else search_pattern
    if pattern_to_find = [] ∨ pattern_to_find.length > search_text.length then []
    else scanLoop search_text pattern_to_find (search_text.length + 1) 0

/-- Start of the ANSI escape sequence emitted by `colored`'s `.red()`:
the bytes of `"\x1b[31m"`. -/
def redStart : List Nat := [27, 91, 51, 49, 109]

/-- End of the ANSI escape sequence emitted by `colored`'s `.red()`:
the bytes of `"\x1b[0m"`. -/
def redEnd : List Nat := [27, 91, 48, 109]

/-- The loop of `colorize_hits` (src/main.rs:259-277): `last` is
`last_processed_position`.  For each span it appends the plain text since
the previous span's end, then the matched segment wrapped in the red
escape sequence; after the last span it appends the remaining tail. -/
def colorizeLoop (original_line : List Nat) :
    List (Nat × Nat) → Nat → List Nat
  | [], last =>
    if last < original_line.length then original_line.drop last else []
  | (s, e) :: rest, last =>
    (if s > last then (original_line.drop last).take (s - last) else [])
      ++ (redStart ++ (original_line.drop s).take (e - s) ++ redEnd)
      ++ colorizeLoop original_line rest e

/-- The highlighter `colorize_hits` (src/main.rs:249-279): the line with each matched span
wrapped in the red escape sequence; the line unchanged when there are no
spans. -/
def colorize_hits (original_line : List Nat)
    (match_ranges : List (Nat × Nat)) : List Nat :=
  if match_ranges = [] then original_line
  else colorizeLoop original_line match_ranges 0

/-- The rendering `colorizeLoop` with the emphasis wrappers removed: the same plain and
matched segments, concatenated in the same order, with `redStart`/`redEnd`
stripped.  This is what "stripping the emphasis markers" from the
highlighter's output leaves. -/
def strippedLoop (original_line : List Nat) :
    List (Nat × Nat) → Nat → List Nat
  | [], last =>
    if last < original_line.length then original_line.drop last else []
  | (s, e) :: rest, last =>
    (if s > last then (original_line.drop last).take (s - last) else [])
      ++ (original_line.drop s).take (e - s)
      ++ strippedLoop original_line rest e

/-- The emit decision of `search_file` (src/main.rs:167-173): with
`invert_match` print only lines with no match, otherwise only lines with
at least one match. -/
def shouldEmit (matches_found : List (Nat × Nat)) (invert_match : Bool) : Bool :=
  if invert_match then matches_found.isEmpty else !matches_found.isEmpty

/-- The display-text choice of `search_file` (src/main.rs:177-182): with
colored output and at least one match, highlight the (original) line;
otherwise the raw original line. -/
def text_to_print (colored_output : Bool) (line_content : List Nat)
    (matches_found : List (Nat × Nat)) : List Nat :=
  if colored_output && !matches_found.isEmpty
  then colorize_hits line_content matches_found
  else line_content

/-- The output-prefix assembly of `search_file` (src/main.rs:184-196):
the four `println!` shapes selected by `print_filenames` / `line_numbers`. -/
def format_output (file_path : List Nat) (current_line_number : Nat)
    (print_filenames line_numbers : Bool) (text : List Nat) : List Nat :=
  if print_filenames && line_numbers then
    file_path ++ [58, 32] ++ natBytes current_line_number ++ [58, 32] ++ text
  else if print_filenames then
    file_path ++ [58, 32] ++ text
  else if line_numbers then
    natBytes current_line_number ++ [58, 32] ++ text
  else text

/-- The run configuration (src/main.rs:8-18), minus the target path list,
which only the excluded CLI layer reads. -/
structure Config where
  pattern : List Nat
  case_insensitive : Bool
  line_numbers : Bool
  invert_match : Bool
  print_filenames : Bool
  colored_output : Bool

/-- The per-line body of `search_file`'s loop (src/main.rs:161-197):
the emitted output lines (zero or one) for one decoded line. -/
def processLine (config : Config) (file_path : List Nat)
    (current_line_number : Nat) (line_content : List Nat) : List (List Nat) :=
  let matches_found :=
    find_matches_in_line line_content config.pattern config.case_insensitive
  if shouldEmit matches_found config.invert_match then
    [format_output file_path current_line_number
      config.print_filenames config.line_numbers
      (text_to_print config.colored_output line_content matches_found)]
  else []

/-- The line-reading loop of `search_file` (src/main.rs:158-199) over the
stream `reader.lines()`: each element is either a decoded line or an I/O /
invalid-UTF-8 error.  The counter increments first; a decoding error is
then propagated by `?`, aborting the rest of the file while the outputs
already produced stand.  Returns the emitted lines and the
`io::Result<()>` outcome. -/
def searchLines (config : Config) (file_path : List Nat) :
    Nat → List (Except Unit (List Nat)) → List (List Nat) × Except Unit Unit
  | _, [] => ([], Except.ok ())
  | _, Except.error e :: _ => ([], Except.error e)
  | current_line_number, Except.ok line_content :: rest =>
    (processLine config file_path (current_line_number + 1) line_content ++
        (searchLines config file_path (current_line_number + 1) rest).1,
      (searchLines config file_path (current_line_number + 1) rest).2)

/-- The scanner `search_file` (src/main.rs:155-200) given the stream of line-read
results for an opened file: line numbers start at 1. -/
def search_file (config : Config) (file_path : List Nat)
    (lines : List (Except Unit (List Nat))) : List (List Nat) × Except Unit Unit :=
  searchLines config file_path 0 lines

/-- The file loop of `main` (src/main.rs:296-298): each file is searched
in order and its `io::Result` discarded (`let _ = search_file(..)`), so a
failing file contributes only what it emitted before failing and the scan
continues with the next file. -/
def runFiles (config : Config) :
    List (List Nat × List (Except Unit (List Nat))) → List (List Nat)
  | [] => []
  | (file_path, lines) :: rest =>
    (search_file config file_path lines).1 ++ runFiles config rest

/-! ### Invariants of the scan loop -/

/-- Every span recorded by the scan loop starts at or after the current
position, has length exactly `pat.length`, ends inside the text, and its
window in the text equals the pattern. -/
theorem scanLoop_mem (text pat : List Nat) :
    ∀ fuel pos sp, sp ∈ scanLoop text pat fuel pos →
      pos ≤ sp.1 ∧ sp.2 = sp.1 + pat.length ∧ sp.2 ≤ text.length ∧
        (text.drop sp.1).take pat.length = pat := by
  intro fuel
  induction fuel with
  | zero => intro pos sp h; simp [scanLoop] at h
  | succ fuel ih =>
    intro pos sp h
    simp only [scanLoop] at h
    by_cases hc : pos + pat.length ≤ text.length
    · rw [if_pos hc] at h
      by_cases hm : (text.drop pos).take pat.length = pat
      · rw [if_pos hm] at h
        rcases List.mem_cons.1 h with h | h
        · subst h; exact ⟨Nat.le_refl _, rfl, hc, hm⟩
        · obtain ⟨h1, h2, h3, h4⟩ := ih (pos + pat.length) sp h
          exact ⟨Nat.le_trans (Nat.le_add_right _ _) h1, h2, h3, h4⟩
      · rw [if_neg hm] at h
        obtain ⟨h1, h2, h3, h4⟩ := ih (pos + 1) sp h
        exact ⟨Nat.le_trans (Nat.le_succ _) h1, h2, h3, h4⟩
    · rw [if_neg hc] at h
      simp at h

/-- The spans of the scan loop are pairwise disjoint: each one ends at or
before the start of every later one. -/
theorem scanLoop_pairwise (text pat : List Nat) :
    ∀ fuel pos,
      List.Pairwise (fun a b : Nat × Nat => a.2 ≤ b.1)
        (scanLoop text pat fuel pos) := by
  intro fuel
  induction fuel with
  | zero => intro pos; simp [scanLoop]
  | succ fuel ih =>
    intro pos
    simp only [scanLoop]
    by_cases hc : pos + pat.length ≤ text.length
    · rw [if_pos hc]
      by_cases hm : (text.drop pos).take pat.length = pat
      · rw [if_pos hm]
        refine List.Pairwise.cons ?_ (ih (pos + pat.length))
        intro sp hsp
        exact (scanLoop_mem text pat fuel (pos + pat.length) sp hsp).1
      · rw [if_neg hm]; exact ih (pos + 1)
    · rw [if_neg hc]; exact List.Pairwise.nil

/-- The fuel `text.length + 1` given to `scanLoop` by
`find_matches_in_line` is never exhausted: for a non-empty pattern, any
fuel exceeding the remaining text gives the same result, i.e. the loop
reaches its exit condition exactly as the Rust `while` loop does. -/
theorem scanLoop_fuel_sufficient (text pat : List Nat) (hp : 0 < pat.length) :
    ∀ fuel₁ pos fuel₂, text.length < pos + fuel₁ → text.length < pos + fuel₂ →
      scanLoop text pat fuel₁ pos = scanLoop text pat fuel₂ pos := by
  intro fuel₁
  induction fuel₁ with
  | zero =>
    intro pos fuel₂ h1 h2
    cases fuel₂ with
    | zero => rfl
    | succ fuel₂ =>
      have hc : ¬ pos + pat.length ≤ text.length := by omega
      simp [scanLoop, hc]
  | succ fuel₁ ih =>
    intro pos fuel₂ h1 h2
    cases fuel₂ with
    | zero =>
      have hc : ¬ pos + pat.length ≤ text.length := by omega
      simp [scanLoop, hc]
    | succ fuel₂ =>
      simp only [scanLoop]
      by_cases hc : pos + pat.length ≤ text.length
      · rw [if_pos hc, if_pos hc]
        by_cases hm : (text.drop pos).take pat.length = pat
        · rw [if_pos hm, if_pos hm,
            ih (pos + pat.length) fuel₂ (by omega) (by omega)]
        · rw [if_neg hm, if_neg hm, ih (pos + 1) fuel₂ (by omega) (by omega)]
      · rw [if_neg hc, if_neg hc]

/-- Spans are well-formed from position `last` on: ordered, non-overlapping,
and contained in `[last, n]`. -/
def SpansFrom (n : Nat) : Nat → List (Nat × Nat) → Prop
  | _, [] => True
  | last, (s, e) :: rest => last ≤ s ∧ s ≤ e ∧ e ≤ n ∧ SpansFrom n e rest

theorem SpansFrom.mono {n last last' : Nat} {l : List (Nat × Nat)}
    (h : SpansFrom n last' l) (hle : last ≤ last') : SpansFrom n last l := by
  cases l with
  | nil => trivial
  | cons sp rest =>
    obtain ⟨h1, h2, h3, h4⟩ := h
    exact ⟨Nat.le_trans hle h1, h2, h3, h4⟩

/-- The scan loop produces well-formed spans from its current position. -/
theorem scanLoop_spansFrom (text pat : List Nat) :
    ∀ fuel pos, SpansFrom text.length pos (scanLoop text pat fuel pos) := by
  intro fuel
  induction fuel with
  | zero => intro pos; simp [scanLoop, SpansFrom]
  | succ fuel ih =>
    intro pos
    simp only [scanLoop]
    by_cases hc : pos + pat.length ≤ text.length
    · rw [if_pos hc]
      by_cases hm : (text.drop pos).take pat.length = pat
      · rw [if_pos hm]
        exact ⟨Nat.le_refl _, Nat.le_add_right _ _, hc, ih (pos + pat.length)⟩
      · rw [if_neg hm]
        exact (ih (pos + 1)).mono (Nat.le_succ _)
    · rw [if_neg hc]; trivial

/-- Case folding never changes the length of a string. -/
theorem to_ascii_lowercase_length (s : List Nat) :
    (to_ascii_lowercase s).length = s.length :=
  List.length_map _ _

/-- Case folding sends the empty string to the empty string and nothing
else. -/
theorem to_ascii_lowercase_eq_nil (s : List Nat) :
    to_ascii_lowercase s = [] ↔ s = [] :=
  List.map_eq_nil_iff

/-- The case-sensitive matcher, with its two guards merged: the empty or
too-long pattern yields no spans, otherwise the scan loop runs on the raw
line. -/
theorem find_matches_false_eq (line pat : List Nat) :
    find_matches_in_line line pat false =
      if pat = [] ∨ pat.length > line.length then []
      else scanLoop line pat (line.length + 1) 0 := by
  unfold find_matches_in_line
  by_cases hpat : pat = []
  · simp [hpat]
  · rw [if_neg hpat]
    simp only [Bool.false_eq_true, if_false]

/-- The case-insensitive matcher, with its two guards merged and the
folded lengths rewritten to the original lengths: the empty or too-long
pattern yields no spans, otherwise the scan loop runs on the folded line
and folded pattern. -/
theorem find_matches_true_eq (line pat : List Nat) :
    find_matches_in_line line pat true =
      if pat = [] ∨ pat.length > line.length then []
      else scanLoop (to_ascii_lowercase line) (to_ascii_lowercase pat)
        (line.length + 1) 0 := by
  unfold find_matches_in_line
  by_cases hpat : pat = []
  · simp [hpat]
  · rw [if_neg hpat]
    simp only [if_true, to_ascii_lowercase_length, to_ascii_lowercase_eq_nil]

/-- The matcher always produces well-formed spans for the
original line (case folding preserves length, so bounds for the folded
text are bounds for the original). -/
theorem find_matches_spansFrom (line pat : List Nat) (ic : Bool) :
    SpansFrom line.length 0 (find_matches_in_line line pat ic) := by
  cases ic with
  | false =>
    rw [find_matches_false_eq]
    split
    · trivial
    · exact scanLoop_spansFrom line pat (line.length + 1) 0
  | true =>
    rw [find_matches_true_eq]
    split
    · trivial
    · have := scanLoop_spansFrom (to_ascii_lowercase line)
        (to_ascii_lowercase pat) (line.length + 1) 0
      rwa [to_ascii_lowercase_length] at this

/-! ### The stripped highlighter output reconstructs the line -/

/-- Gluing a window back onto the following tail of the line. -/
theorem take_glue_drop (l : List Nat) (i j : Nat) (hij : i ≤ j) :
    (l.drop i).take (j - i) ++ l.drop j = l.drop i := by
  have h1 : (l.drop i).drop (j - i) = l.drop j := by
    rw [List.drop_drop]
    congr 1
    omega
  conv_rhs => rw [← List.take_append_drop (j - i) (l.drop i)]
  rw [h1]

/-- On well-formed spans, the marker-stripped highlighter output starting
at `last` is exactly the tail of the line from `last`. -/
theorem strippedLoop_eq_drop (line : List Nat) :
    ∀ spans last, SpansFrom line.length last spans → last ≤ line.length →
      strippedLoop line spans last = line.drop last := by
  intro spans
  induction spans with
  | nil =>
    intro last _ hlast
    simp only [strippedLoop]
    split
    · rfl
    · have : last = line.length := by omega
      rw [this, List.drop_length]
  | cons sp rest ih =>
    intro last hsp hlast
    obtain ⟨s, e⟩ := sp
    obtain ⟨h1, h2, h3, h4⟩ := hsp
    simp only [strippedLoop]
    have hgap : (if s > last then (line.drop last).take (s - last) else []) =
        (line.drop last).take (s - last) := by
      split
      · rfl
      · have : s - last = 0 := by omega
        rw [this, List.take_zero]
    rw [hgap, ih e h4 h3, List.append_assoc,
      take_glue_drop line s e h2, take_glue_drop line last s h1]

/-! ### UTF-8 structure and char boundaries

Rust `String`s are valid UTF-8, and slicing one (`&line[s..e]`) panics
unless both indices are char boundaries.  We model the structural part of
UTF-8 validity (lead byte with its announced number of continuation
bytes) and Rust's `str::is_char_boundary`. -/

/-- The number of bytes of a UTF-8 sequence announced by its lead byte,
`none` for a continuation byte (`0x80..=0xBF`) or an impossible lead. -/
def utf8Len (b : Nat) : Option Nat :=
  if b < 128 then some 1
  else if b < 192 then none
  else if b < 224 then some 2
  else if b < 240 then some 3
  else if b < 248 then some 4
  else none

/-- Structural UTF-8 validity: a concatenation of sequences, each a lead
byte followed by exactly the announced number of continuation bytes.
Every valid Rust `String`'s byte representation satisfies this. -/
inductive Utf8Chunks : List Nat → Prop
  | nil : Utf8Chunks []
  | cons (b : Nat) (cont rest : List Nat)
      (hlen : utf8Len b = some (cont.length + 1))
      (hcont : ∀ c ∈ cont, 128 ≤ c ∧ c < 192)
      (hrest : Utf8Chunks rest) :
      Utf8Chunks (b :: (cont ++ rest))

/-- Rust's `str::is_char_boundary`: the end of the string, or a position
holding a byte that is not a continuation byte. -/
def isCharBoundary (s : List Nat) (i : Nat) : Prop :=
  i = s.length ∨ ∃ b, s[i]? = some b ∧ (b < 128 ∨ 192 ≤ b)

/-- A lead byte is never a continuation byte. -/
theorem utf8Len_lead {b n : Nat} (h : utf8Len b = some n) :
    b < 128 ∨ 192 ≤ b := by
  unfold utf8Len at h
  split_ifs at h <;> omega

/-- An all-ASCII byte string is structurally valid UTF-8. -/
theorem asciiChunks (s : List Nat) (h : ∀ b ∈ s, b < 128) : Utf8Chunks s := by
  induction s with
  | nil => exact Utf8Chunks.nil
  | cons a l ih =>
    have ha : utf8Len a = some 1 := by
      unfold utf8Len
      rw [if_pos (h a (List.mem_cons_self a l))]
    have : Utf8Chunks (a :: ([] ++ l)) :=
      Utf8Chunks.cons a [] l ha (by simp)
        (ih fun b hb => h b (List.mem_cons_of_mem a hb))
    simpa using this

/-- Position `0` is always a char boundary of a structurally valid
string. -/
theorem Utf8Chunks.boundary_zero {s : List Nat} (h : Utf8Chunks s) :
    isCharBoundary s 0 := by
  cases h with
  | nil => exact Or.inl rfl
  | cons b cont rest hlen hcont hrest =>
    exact Or.inr ⟨b, List.getElem?_cons_zero, utf8Len_lead hlen⟩

/-- ASCII lowercase folding keeps every byte on the same side of the
continuation-byte range. -/
theorem asciiLower_boundary_iff (b : Nat) :
    (asciiLower b < 128 ∨ 192 ≤ asciiLower b) ↔ (b < 128 ∨ 192 ≤ b) := by
  unfold asciiLower
  split
  · rename_i h
    simp only [Bool.and_eq_true, decide_eq_true_eq] at h
    omega
  · omega

/-- ASCII lowercase folding does not change the announced UTF-8 length of
a byte. -/
theorem utf8Len_asciiLower (b : Nat) : utf8Len (asciiLower b) = utf8Len b := by
  unfold asciiLower utf8Len
  split
  · rename_i h
    simp only [Bool.and_eq_true, decide_eq_true_eq] at h
    split_ifs <;> first | rfl | omega
  · split_ifs <;> rfl

/-- ASCII lowercase folding fixes every byte outside `A`–`Z`. -/
theorem asciiLower_eq_self {b : Nat} (h : ¬(65 ≤ b ∧ b ≤ 90)) :
    asciiLower b = b := by
  unfold asciiLower
  split <;> rename_i hb
  · simp only [Bool.and_eq_true, decide_eq_true_eq] at hb; omega
  · rfl

/-- ASCII lowercase folding preserves structural UTF-8 validity. -/
theorem Utf8Chunks.fold {s : List Nat} (h : Utf8Chunks s) :
    Utf8Chunks (to_ascii_lowercase s) := by
  induction h with
  | nil => exact Utf8Chunks.nil
  | cons b cont rest hlen hcont hrest ih =>
    have hcont' : cont.map asciiLower = cont := by
      have : ∀ c ∈ cont, asciiLower c = c := fun c hc =>
        asciiLower_eq_self (by have := hcont c hc; omega)
      calc cont.map asciiLower = cont.map id := List.map_congr_left this
        _ = cont := List.map_id cont
    have : Utf8Chunks (asciiLower b :: (cont ++ to_ascii_lowercase rest)) :=
      Utf8Chunks.cons (asciiLower b) cont (to_ascii_lowercase rest)
        (by rw [utf8Len_asciiLower]; exact hlen) hcont ih
    simpa [to_ascii_lowercase, hcont'] using this

/-- Folding a line moves no char boundary. -/
theorem fold_boundary_iff (s : List Nat) (i : Nat) :
    isCharBoundary (to_ascii_lowercase s) i ↔ isCharBoundary s i := by
  unfold isCharBoundary to_ascii_lowercase
  rw [List.length_map]
  cases hs : s[i]? with
  | none =>
    have : (s.map asciiLower)[i]? = none := by
      rw [List.getElem?_map, hs]; rfl
    rw [this]
  | some c =>
    have : (s.map asciiLower)[i]? = some (asciiLower c) := by
      rw [List.getElem?_map, hs]; rfl
    rw [this]
    constructor
    · rintro (h | ⟨b, hb, hcase⟩)
      · exact Or.inl h
      · rcases Option.some.inj hb with rfl
        exact Or.inr ⟨c, rfl, (asciiLower_boundary_iff c).1 hcase⟩
    · rintro (h | ⟨b, hb, hcase⟩)
      · exact Or.inl h
      · rcases Option.some.inj hb with rfl
        exact Or.inr ⟨asciiLower c, rfl, (asciiLower_boundary_iff c).2 hcase⟩

/-- Transporting a boundary of the dropped tail back to the whole
string. -/
theorem boundary_of_drop {s : List Nat} {i j : Nat} (hi : i ≤ s.length)
    (h : isCharBoundary (s.drop i) j) : isCharBoundary s (i + j) := by
  rcases h with h | ⟨b, hb, hcase⟩
  · rw [List.length_drop] at h
    exact Or.inl (by omega)
  · rw [List.getElem?_drop] at hb
    exact Or.inr ⟨b, hb, hcase⟩

/-- Dropping a structurally valid string at a char boundary leaves a
structurally valid string. -/
theorem Utf8Chunks.drop {s : List Nat} (h : Utf8Chunks s) :
    ∀ i, isCharBoundary s i → Utf8Chunks (s.drop i) := by
  induction h with
  | nil => intro i _; rw [List.drop_nil]; exact Utf8Chunks.nil
  | cons b cont rest hlen hcont hrest ih =>
    intro i hb
    match i with
    | 0 => exact Utf8Chunks.cons b cont rest hlen hcont hrest
    | j + 1 =>
      rw [List.drop_succ_cons]
      by_cases hj : j < cont.length
      · exfalso
        rcases hb with hb | ⟨c, hc, hcase⟩
        · simp only [List.length_cons, List.length_append] at hb
          omega
        · rw [List.getElem?_cons_succ, List.getElem?_append, if_pos hj] at hc
          obtain ⟨hlt, rfl⟩ := List.getElem?_eq_some_iff.1 hc
          have := hcont _ (List.getElem_mem hlt)
          omega
      · push_neg at hj
        have hdrop : (cont ++ rest).drop j = rest.drop (j - cont.length) := by
          have hj' : j = cont.length + (j - cont.length) := by omega
          rw [hj', List.drop_append, Nat.add_sub_cancel_left]
        rw [hdrop]
        refine ih (j - cont.length) ?_
        rcases hb with hb | ⟨c, hc, hcase⟩
        · simp only [List.length_cons, List.length_append] at hb
          exact Or.inl (by omega)
        · rw [List.getElem?_cons_succ, List.getElem?_append_right hj] at hc
          exact Or.inr ⟨c, hc, hcase⟩

/-- Transporting a boundary of `rest` across one leading chunk. -/
theorem boundary_cons_chunk {rest : List Nat} (b : Nat) (cont : List Nat)
    {j : Nat} (h : isCharBoundary rest j) :
    isCharBoundary (b :: (cont ++ rest)) (cont.length + 1 + j) := by
  rcases h with h | ⟨c, hc, hcase⟩
  · left
    simp only [List.length_cons, List.length_append]
    omega
  · right
    refine ⟨c, ?_, hcase⟩
    have hidx : cont.length + 1 + j = (cont.length + j) + 1 := by omega
    rw [hidx, List.getElem?_cons_succ,
      List.getElem?_append_right (Nat.le_add_right _ _),
      Nat.add_sub_cancel_left]
    exact hc

/-- If a structurally valid pattern is a prefix of a structurally valid
string, then the position just after that prefix is a char boundary of
the string: Rust's UTF-8 lead bytes announce their sequence length, so
the string's decoding cannot straddle the end of the pattern. -/
theorem prefix_chunk_boundary {p : List Nat} (hp : Utf8Chunks p) :
    ∀ s, Utf8Chunks s → s.take p.length = p → isCharBoundary s p.length := by
  induction hp with
  | nil => intro s hs _; exact hs.boundary_zero
  | cons b cont prest hlen hcont hprest ih =>
    intro s hs htake
    cases hs with
    | nil => simp at htake
    | cons b' cont' rest' hlen' hcont' hrest' =>
      simp only [List.length_cons, List.take_succ_cons] at htake
      obtain ⟨hbb, htail⟩ := List.cons.inj htake
      subst hbb
      have hcl : cont'.length = cont.length := by
        rw [hlen] at hlen'
        have := Option.some.inj hlen'
        omega
      have htail' : cont' ++ rest'.take prest.length = cont ++ prest := by
        have hsplit : (cont' ++ rest').take (cont'.length + prest.length) =
            cont' ++ rest'.take prest.length := List.take_append ..
        rw [← hsplit, hcl]
        have harg : (cont ++ prest).length = cont.length + prest.length :=
          List.length_append ..
        rw [harg] at htail
        exact htail
      obtain ⟨hcc, hrr⟩ :=
        List.append_inj htail' (by rw [hcl])
      have hbrest : isCharBoundary rest' prest.length := ih rest' hrest' hrr
      have := boundary_cons_chunk b' cont' hbrest
      have hidx : (b' :: (cont ++ prest)).length =
          cont'.length + 1 + prest.length := by
        simp only [List.length_cons, List.length_append]
        omega
      rw [hidx]
      exact this

/-- Every span of the scan loop on structurally valid text, matching a
structurally valid non-empty pattern, starts and ends on char boundaries
of the text. -/
theorem scan_window_boundaries {text fpat : List Nat} (htext : Utf8Chunks text)
    (hfpat : Utf8Chunks fpat) (hne : fpat ≠ []) {p : Nat}
    (hpm : p + fpat.length ≤ text.length)
    (hwin : (text.drop p).take fpat.length = fpat) :
    isCharBoundary text p ∧ isCharBoundary text (p + fpat.length) := by
  have hplen : 0 < fpat.length := List.length_pos.2 hne
  have hstart : isCharBoundary text p := by
    rcases hfpat.boundary_zero with h0 | ⟨c, hc, hcase⟩
    · exact absurd (List.eq_nil_of_length_eq_zero h0.symm) hne
    · right
      refine ⟨c, ?_, hcase⟩
      have h1 : ((text.drop p).take fpat.length)[0]? = some c := by
        rw [hwin]; exact hc
      rw [List.getElem?_take, if_pos hplen, List.getElem?_drop,
        Nat.add_zero] at h1
      exact h1
  refine ⟨hstart, ?_⟩
  have hdropChunks : Utf8Chunks (text.drop p) := htext.drop p hstart
  have hend : isCharBoundary (text.drop p) fpat.length :=
    prefix_chunk_boundary hfpat (text.drop p) hdropChunks hwin
  exact boundary_of_drop (by omega) hend

/-! ### Remaining helper lemmas for the claims -/

/-- Every span of the matcher has length exactly the pattern's byte
length and ends inside the line. -/
theorem find_matches_mem (line pat : List Nat) (ic : Bool) :
    ∀ sp ∈ find_matches_in_line line pat ic,
      sp.2 = sp.1 + pat.length ∧ sp.2 ≤ line.length := by
  cases ic with
  | false =>
    rw [find_matches_false_eq]
    split
    · simp
    · intro sp hsp
      obtain ⟨_, h2, h3, _⟩ := scanLoop_mem line pat (line.length + 1) 0 sp hsp
      exact ⟨h2, h3⟩
  | true =>
    rw [find_matches_true_eq]
    split
    · simp
    · intro sp hsp
      obtain ⟨_, h2, h3, _⟩ := scanLoop_mem (to_ascii_lowercase line)
        (to_ascii_lowercase pat) (line.length + 1) 0 sp hsp
      rw [to_ascii_lowercase_length] at h2
      rw [to_ascii_lowercase_length] at h3
      exact ⟨h2, h3⟩

/-- The matcher's spans are pairwise disjoint, in span order. -/
theorem find_matches_pairwise (line pat : List Nat) (ic : Bool) :
    List.Pairwise (fun a b : Nat × Nat => a.2 ≤ b.1)
      (find_matches_in_line line pat ic) := by
  cases ic with
  | false =>
    rw [find_matches_false_eq]
    split
    · exact List.Pairwise.nil
    · exact scanLoop_pairwise line pat (line.length + 1) 0
  | true =>
    rw [find_matches_true_eq]
    split
    · exact List.Pairwise.nil
    · exact scanLoop_pairwise (to_ascii_lowercase line)
        (to_ascii_lowercase pat) (line.length + 1) 0

/-- A non-empty pattern scanned against itself matches once, covering the
whole text: first iteration matches at 0, advances by the full length,
and the loop condition then fails. -/
theorem scanLoop_self (text : List Nat) (hne : text ≠ []) :
    scanLoop text text (text.length + 1) 0 = [(0, text.length)] := by
  have hlen : 0 < text.length := List.length_pos.2 hne
  have hstop : ∀ fuel pos, text.length < pos + text.length →
      scanLoop text text fuel pos = [] := by
    intro fuel pos hpos
    cases fuel with
    | zero => rfl
    | succ fuel =>
      simp only [scanLoop]
      rw [if_neg (by omega)]
  simp only [scanLoop]
  rw [if_pos (by omega), if_pos (by rw [List.drop_zero, List.take_length]),
    hstop text.length (0 + text.length) (by omega)]
  simp

/-! ### The claims -/

/-- C1: for every line and every non-empty pattern, in either case mode,
the spans returned by the matcher are pairwise non-overlapping (each span
ends at or before the start of every later span) and strictly increasing
in start; in particular the scan of `"aaaa"` for `"aa"` yields
`[(0,2), (2,4)]`, not the overlapping `[(0,2),(1,3),(2,4)]`. -/
theorem matcher_nonoverlapping_increasing (line pat : List Nat) (ic : Bool)
    (hp : pat ≠ []) :
    List.Pairwise (fun a b : Nat × Nat => a.2 ≤ b.1 ∧ a.1 < b.1)
      (find_matches_in_line line pat ic) ∧
    find_matches_in_line (asciiBytes "aaaa") (asciiBytes "aa") false =
      [(0, 2), (2, 4)] := by
  refine ⟨List.Pairwise.imp_of_mem ?_ (find_matches_pairwise line pat ic),
    by decide⟩
  intro a b ha _ hR
  have h1 := (find_matches_mem line pat ic a ha).1
  have hplen : 0 < pat.length := List.length_pos.2 hp
  exact ⟨hR, by omega⟩

/-- Witness for C1 at `line = "aaaa"`, `pattern = "aa"`. -/
theorem matcher_nonoverlapping_increasing_witness :
    asciiBytes "aa" ≠ [] ∧
    (List.Pairwise (fun a b : Nat × Nat => a.2 ≤ b.1 ∧ a.1 < b.1)
        (find_matches_in_line (asciiBytes "aaaa") (asciiBytes "aa") false) ∧
      find_matches_in_line (asciiBytes "aaaa") (asciiBytes "aa") false =
        [(0, 2), (2, 4)]) :=
  ⟨by decide, matcher_nonoverlapping_increasing (asciiBytes "aaaa")
    (asciiBytes "aa") false (by decide)⟩

/-- C2: the case-insensitive matcher is exactly the case-sensitive matcher
on the ASCII-lowercase-folded line and pattern; folding fixes every byte
that is not an ASCII uppercase letter and preserves length, and the span
offsets are valid positions of the original line; and
`findMatches("Hello World", "hello", true) = [(0,5)]` while the
case-sensitive scan returns `[]`. -/
theorem matcher_case_fold_equiv (line pat : List Nat) :
    find_matches_in_line line pat true =
      find_matches_in_line (to_ascii_lowercase line)
        (to_ascii_lowercase pat) false ∧
    (to_ascii_lowercase line).length = line.length ∧
    (∀ b, ¬(65 ≤ b ∧ b ≤ 90) → asciiLower b = b) ∧
    (∀ sp ∈ find_matches_in_line line pat true,
      sp.1 ≤ sp.2 ∧ sp.2 ≤ line.length) ∧
    find_matches_in_line (asciiBytes "Hello World") (asciiBytes "hello")
      true = [(0, 5)] ∧
    find_matches_in_line (asciiBytes "Hello World") (asciiBytes "hello")
      false = [] := by
  refine ⟨?_, to_ascii_lowercase_length line,
    fun b hb => asciiLower_eq_self hb, ?_, by decide, by decide⟩
  · rw [find_matches_true_eq, find_matches_false_eq]
    simp only [to_ascii_lowercase_eq_nil, to_ascii_lowercase_length]
  · intro sp hsp
    have h := find_matches_mem line pat true sp hsp
    omega

/-- Witness for C2 at `line = "Hello World"`, `pattern = "hello"` and, for
the folding clause, the non-letter byte `33` (`"!"`). -/
theorem matcher_case_fold_equiv_witness :
    find_matches_in_line (asciiBytes "Hello World") (asciiBytes "hello")
        true =
      find_matches_in_line (to_ascii_lowercase (asciiBytes "Hello World"))
        (to_ascii_lowercase (asciiBytes "hello")) false ∧
    ¬(65 ≤ 33 ∧ 33 ≤ 90) ∧ asciiLower 33 = 33 ∧
    (0, 5) ∈ find_matches_in_line (asciiBytes "Hello World")
        (asciiBytes "hello") true ∧
    (0 : Nat) ≤ 5 ∧ 5 ≤ (asciiBytes "Hello World").length :=
  ⟨(matcher_case_fold_equiv (asciiBytes "Hello World")
      (asciiBytes "hello")).1,
    by decide,
    (matcher_case_fold_equiv (asciiBytes "Hello World")
      (asciiBytes "hello")).2.2.1 33 (by decide),
    by decide,
    (matcher_case_fold_equiv (asciiBytes "Hello World")
      (asciiBytes "hello")).2.2.2.1 (0, 5) (by decide)⟩

/-- C3: the empty pattern matches nothing: the matcher returns no spans
for every line in both case modes (and, being a total function, raises no
error). -/
theorem matcher_empty_pattern (line : List Nat) (ic : Bool) :
    find_matches_in_line line [] ic = [] := by
  unfold find_matches_in_line
  rw [if_pos rfl]

/-- C4 counterexample: at `line = ""`, `pattern = ""` the pattern equals
the entire line, but the matcher returns `[]`, not the single span
`(0, len(line)) = (0, 0)` the claim requires. -/
theorem matcher_full_line_counterexample :
    ([] : List Nat) = ([] : List Nat) ∧
    find_matches_in_line [] [] false ≠ [(0, ([] : List Nat).length)] :=
  ⟨rfl, by decide⟩

/-- C4 (amended): a pattern longer than the line yields no spans and no
error; a NON-EMPTY pattern equal to the entire line (after the case
folding in effect) yields exactly one span `(0, len(line))` — the empty
pattern is excluded, since it always yields zero spans. -/
theorem matcher_long_pattern_and_full_line (line pat : List Nat) (ic : Bool) :
    (pat.length > line.length → find_matches_in_line line pat ic = []) ∧
    (pat ≠ [] →
      (if ic then to_ascii_lowercase pat else pat) =
        (if ic then to_ascii_lowercase line else line) →
      find_matches_in_line line pat ic = [(0, line.length)]) := by
  constructor
  · intro hlen
    cases ic with
    | false => rw [find_matches_false_eq, if_pos (Or.inr hlen)]
    | true => rw [find_matches_true_eq, if_pos (Or.inr hlen)]
  · intro hne hfold
    cases ic with
    | false =>
      simp only [Bool.false_eq_true, if_false] at hfold
      subst hfold
      rw [find_matches_false_eq,
        if_neg (by push_neg; exact ⟨hne, Nat.le_refl _⟩)]
      exact scanLoop_self pat hne
    | true =>
      simp only [if_true] at hfold
      have hlen : pat.length = line.length := by
        have := congrArg List.length hfold
        rwa [to_ascii_lowercase_length, to_ascii_lowercase_length] at this
      have hlne : line ≠ [] := by
        intro h
        apply hne
        apply List.eq_nil_of_length_eq_zero
        rw [hlen, h]
        rfl
      have hfne : to_ascii_lowercase line ≠ [] := by
        rw [Ne, to_ascii_lowercase_eq_nil]; exact hlne
      rw [find_matches_true_eq, if_neg (by push_neg; exact ⟨hne, by omega⟩),
        hfold]
      have := scanLoop_self (to_ascii_lowercase line) hfne
      rw [to_ascii_lowercase_length] at this
      rw [this]

/-- Witness for C4: `"ab"` is longer than `"a"` and yields no spans;
`"hELLO"` folds to the whole of `"Hello"` and yields the single full-line
span. -/
theorem matcher_long_pattern_and_full_line_witness :
    ((asciiBytes "ab").length > (asciiBytes "a").length ∧
      find_matches_in_line (asciiBytes "a") (asciiBytes "ab") false = []) ∧
    (asciiBytes "hELLO" ≠ [] ∧
      (if true then to_ascii_lowercase (asciiBytes "hELLO")
          else asciiBytes "hELLO") =
        (if true then to_ascii_lowercase (asciiBytes "Hello")
          else asciiBytes "Hello") ∧
      find_matches_in_line (asciiBytes "Hello") (asciiBytes "hELLO") true =
        [(0, (asciiBytes "Hello").length)]) :=
  ⟨⟨by decide,
      (matcher_long_pattern_and_full_line (asciiBytes "a") (asciiBytes "ab")
        false).1 (by decide)⟩,
    ⟨by decide, by decide,
      (matcher_long_pattern_and_full_line (asciiBytes "Hello")
        (asciiBytes "hELLO") true).2 (by decide) (by decide)⟩⟩

/-- C5: the emit decision returns "spans is empty" when `invert_match` is
set and "spans is not empty" otherwise, so for the same spans the two
modes are exact negations of one another. -/
theorem shouldEmit_invert_duality (spans : List (Nat × Nat)) :
    shouldEmit spans true = spans.isEmpty ∧
    shouldEmit spans false = !spans.isEmpty ∧
    shouldEmit spans true = !shouldEmit spans false := by
  refine ⟨by simp [shouldEmit], by simp [shouldEmit], ?_⟩
  simp [shouldEmit]

/-- C6: the formatted output follows the four-way prefix precedence on the
filename / line-number toggles, `": "` separated; in particular
`filePath = "a.txt"`, `lineNumber = 3`, both flags set, text `"hit"`
yields exactly `"a.txt: 3: hit"`. -/
theorem format_output_precedence (file_path text : List Nat) (n : Nat) :
    format_output file_path n true true text =
      file_path ++ asciiBytes ": " ++ natBytes n ++ asciiBytes ": " ++ text ∧
    format_output file_path n true false text =
      file_path ++ asciiBytes ": " ++ text ∧
    format_output file_path n false true text =
      natBytes n ++ asciiBytes ": " ++ text ∧
    format_output file_path n false false text = text ∧
    format_output (asciiBytes "a.txt") 3 true true (asciiBytes "hit") =
      asciiBytes "a.txt: 3: hit" := by
  have hsep : asciiBytes ": " = [58, 32] := by decide
  refine ⟨?_, ?_, ?_, ?_, by decide⟩ <;> simp [format_output, hsep]

/-- C7: the highlighter returns the line unchanged when there are no
spans, and on the span sequences the matcher produces it preserves every
original byte outside the emphasis wrappers, in order: removing the
emphasis markers from its output (`strippedLoop`, the highlighter's
rendering with `redStart`/`redEnd` deleted) reconstructs the line
exactly. -/
theorem highlighter_round_trip (line pat : List Nat) (ic : Bool) :
    colorize_hits line [] = line ∧
    strippedLoop line (find_matches_in_line line pat ic) 0 = line := by
  refine ⟨by simp [colorize_hits], ?_⟩
  have h := strippedLoop_eq_drop line (find_matches_in_line line pat ic) 0
    (find_matches_spansFrom line pat ic) (Nat.zero_le _)
  rwa [List.drop_zero] at h

/-- C8: the matcher (and thus the highlighter's slicing of the original
line at its spans, and the formatter) never fails: on structurally valid
UTF-8 (which every Rust `String` is), every returned span is ordered,
ends inside the line, and both endpoints are char boundaries of the
ORIGINAL line even when matching ran on the ASCII-folded copy — so
`&line[start..end]` in `colorize_hits` cannot panic. -/
theorem matcher_spans_are_char_boundaries (line pat : List Nat) (ic : Bool)
    (hline : Utf8Chunks line) (hpat : Utf8Chunks pat) :
    ∀ sp ∈ find_matches_in_line line pat ic,
      sp.1 ≤ sp.2 ∧ sp.2 ≤ line.length ∧
        isCharBoundary line sp.1 ∧ isCharBoundary line sp.2 := by
  cases ic with
  | false =>
    rw [find_matches_false_eq]
    split
    · simp
    · rename_i hguard
      push_neg at hguard
      intro sp hsp
      obtain ⟨h1, h2, h3, h4⟩ :=
        scanLoop_mem line pat (line.length + 1) 0 sp hsp
      obtain ⟨hb1, hb2⟩ := scan_window_boundaries hline hpat hguard.1
        (by omega) h4
      rw [← h2] at hb2
      exact ⟨by omega, h3, hb1, hb2⟩
  | true =>
    rw [find_matches_true_eq]
    split
    · simp
    · rename_i hguard
      push_neg at hguard
      intro sp hsp
      obtain ⟨h1, h2, h3, h4⟩ :=
        scanLoop_mem (to_ascii_lowercase line) (to_ascii_lowercase pat)
          (line.length + 1) 0 sp hsp
      have hfne : to_ascii_lowercase pat ≠ [] := by
        rw [Ne, to_ascii_lowercase_eq_nil]; exact hguard.1
      have hpm : sp.1 + (to_ascii_lowercase pat).length ≤
          (to_ascii_lowercase line).length := by omega
      obtain ⟨hb1, hb2⟩ :=
        scan_window_boundaries hline.fold hpat.fold hfne hpm h4
      rw [← h2] at hb2
      rw [to_ascii_lowercase_length] at h3
      exact ⟨by omega, h3, (fold_boundary_iff line sp.1).1 hb1,
        (fold_boundary_iff line sp.2).1 hb2⟩

/-- Witness for C8 at `line = "Hello World"`, `pattern = "hello"`,
case-insensitive. -/
theorem matcher_spans_are_char_boundaries_witness :
    Utf8Chunks (asciiBytes "Hello World") ∧ Utf8Chunks (asciiBytes "hello") ∧
    ∀ sp ∈ find_matches_in_line (asciiBytes "Hello World")
        (asciiBytes "hello") true,
      sp.1 ≤ sp.2 ∧ sp.2 ≤ (asciiBytes "Hello World").length ∧
        isCharBoundary (asciiBytes "Hello World") sp.1 ∧
        isCharBoundary (asciiBytes "Hello World") sp.2 :=
  ⟨asciiChunks _ (by decide), asciiChunks _ (by decide),
    matcher_spans_are_char_boundaries (asciiBytes "Hello World")
      (asciiBytes "hello") true (asciiChunks _ (by decide))
      (asciiChunks _ (by decide))⟩

/-- A read error after a prefix of decoded lines: the scan returns
exactly the outputs of the decoded prefix and the error, whatever comes
after the error. -/
theorem searchLines_error_stops (config : Config) (file_path : List Nat)
    (rest : List (Except Unit (List Nat))) :
    ∀ (pre : List (List Nat)) (n : Nat),
      searchLines config file_path n
          (pre.map Except.ok ++ Except.error () :: rest) =
        ((searchLines config file_path n (pre.map Except.ok)).1,
          Except.error ()) := by
  intro pre
  induction pre with
  | nil => intro n; rfl
  | cons l pre ih =>
    intro n
    simp only [List.map_cons, List.cons_append, searchLines, List.append_eq]
    rw [ih (n + 1)]

/-- C9: a line that fails to decode makes the whole file read fail with
an I/O error, aborting that file's remaining lines while the lines
already emitted for the file stand (the emitted output is exactly that of
the decoded prefix, independent of anything after the bad line); the
caller discards the per-file result, so the scan silently continues with
the next file. -/
theorem io_error_aborts_file_skips_to_next (config : Config)
    (file_path : List Nat) (pre : List (List Nat))
    (rest : List (Except Unit (List Nat)))
    (more : List (List Nat × List (Except Unit (List Nat)))) :
    (search_file config file_path
        (pre.map Except.ok ++ Except.error () :: rest)).2 =
      Except.error () ∧
    (search_file config file_path
        (pre.map Except.ok ++ Except.error () :: rest)).1 =
      (search_file config file_path (pre.map Except.ok)).1 ∧
    runFiles config
        ((file_path, pre.map Except.ok ++ Except.error () :: rest) :: more) =
      (search_file config file_path
          (pre.map Except.ok ++ Except.error () :: rest)).1 ++
        runFiles config more := by
  refine ⟨?_, ?_, rfl⟩ <;>
    · unfold search_file
      rw [searchLines_error_stops]

/-- C10: the text printed for an emitted line is always built from the
original line with its original casing, even under case-insensitive
matching: without colored output it IS the original line, with colored
output it is the highlighter applied to the original line (whose
marker-stripped content is again the original line); the folded copy used
for matching never reaches the output.  Concretely, searching `"Hello"`
for pattern `"hello"` case-insensitively emits `"Hello"`. -/
theorem output_preserves_original_case (line pat : List Nat) :
    text_to_print false line (find_matches_in_line line pat true) = line ∧
    text_to_print true line (find_matches_in_line line pat true) =
      colorize_hits line (find_matches_in_line line pat true) ∧
    strippedLoop line (find_matches_in_line line pat true) 0 = line ∧
    processLine ⟨asciiBytes "hello", true, false, false, false, false⟩ []
        1 (asciiBytes "Hello") = [asciiBytes "Hello"] := by
  refine ⟨by simp [text_to_print], ?_, ?_, by decide⟩
  · cases hms : find_matches_in_line line pat true with
    | nil => simp [text_to_print, colorize_hits]
    | cons sp ms => simp [text_to_print, colorize_hits]
  · have h := strippedLoop_eq_drop line (find_matches_in_line line pat true) 0
      (find_matches_spansFrom line pat true) (Nat.zero_le _)
    rwa [List.drop_zero] at h

end Grep

